import Mathlib

/-!
Verification of the CBS (Circular Binary Segmentation) implementation in
`cbs.go` (package `cbs`, single entry point `CBS`).

Modelling choices (shallow embedding):

* Go `float64` values are modelled as exact rationals `ℚ`.  The algorithm
  only adds, subtracts, multiplies, divides and compares data values, so the
  rational model follows the source expression by expression.
* Go's `*rand.Rand` (library code external to this repository) is modelled by
  `Rng`: an abstract stream of pseudo-random naturals together with a read
  position.  `rand.Shuffle` is documented as a Fisher-Yates shuffle driven by
  `Int63n`/`int31n` draws (one draw per loop step, `j` uniform in `[0, i]`);
  `Rng.intn` models one bounded draw as `stream pos % bound`.
* `gonum` helpers used by `cbsStat` (`stat.Mean`, `floats.CumSum`,
  `floats.MaxIdx`, `floats.MinIdx`, also external library code) are embedded
  directly from their documented behaviour: mean = sum/length, running
  cumulative sum, index of the first occurrence of the maximum (gonum updates
  only on a strict `>`), index of the first occurrence of the minimum.
* `time.Now().UnixNano()` is modelled as an explicit parameter `now`, and the
  construction `rand.New(rand.NewSource src)` as an explicit parameter
  `mkStream : Int → Nat → Nat` of the top-level `CBS`, so that the seed
  selection logic of `CBS` (lines 26-31 of the source) is represented
  faithfully while the PRNG internals stay abstract.
* The recursion `rsegment` strictly shrinks its `[start, stop)` range; it is
  embedded as `rsegmentF` with an explicit fuel argument (so that results
  compute by `rfl`/`decide`), with `rsegment` supplying fuel `stop - start`.
  The theorem for claim C8 proves the fuel is irrelevant once it is at least
  `stop - start`, which is exactly the termination argument of the source.
* Errors: every `error` returned in the source is always `nil` (`cbsStat`
  never fails), so the error component is dropped from the embedding.
-/

/- Batteries marks the arithmetic on `Rat` irreducible, which blocks kernel
evaluation by `decide`; making it semireducible again lets concrete runs of
the embedded program be checked by evaluation. -/
attribute [local semireducible] Rat.add Rat.mul Rat.sub Rat.inv Rat.ofScientific

/-- Sum of a list of rationals; models `floats.Sum` (addition is associative
and commutative over `ℚ`, so the iteration order does not matter here). -/
def listSum : List ℚ → ℚ
  | [] => 0
  | v :: r => v + listSum r

/-- Models `stat.Mean(x, nil)`: sum divided by length. -/
def goMean (x : List ℚ) : ℚ := listSum x / (x.length : ℚ)

/-- Helper for `cumSum`: running total with accumulator `acc`. -/
def cumSumAux (acc : ℚ) : List ℚ → List ℚ
  | [] => []
  | v :: r => (acc + v) :: cumSumAux (acc + v) r

/-- Models `floats.CumSum(y, x0)`: `y[k]` is the sum of `x0[0..k]`. -/
def cumSum (l : List ℚ) : List ℚ := cumSumAux 0 l

/-- Helper for `maxIdx`: `best` is the running maximum, `bi` its (first)
index, `i` the index of the head of the remaining list.  gonum's `MaxIdx`
updates only on a strict `v > max`, so the first occurrence wins. -/
def maxIdxAux : ℚ → Nat → Nat → List ℚ → Nat
  | _, bi, _, [] => bi
  | best, bi, i, v :: rest =>
    if best < v then maxIdxAux v i (i + 1) rest else maxIdxAux best bi (i + 1) rest

/-- Models `floats.MaxIdx`: index of the first occurrence of the maximum.
(gonum panics on an empty slice; `cbsStat` guards `len(x) == 0` first, so the
value returned here for `[]` is never used.) -/
def maxIdx : List ℚ → Nat
  | [] => 0
  | v :: rest => maxIdxAux v 0 1 rest

/-- Helper for `minIdx`, mirror image of `maxIdxAux` (strict `v < min`). -/
def minIdxAux : ℚ → Nat → Nat → List ℚ → Nat
  | _, bi, _, [] => bi
  | best, bi, i, v :: rest =>
    if v < best then minIdxAux v i (i + 1) rest else minIdxAux best bi (i + 1) rest

/-- Models `floats.MinIdx`: index of the first occurrence of the minimum. -/
def minIdx : List ℚ → Nat
  | [] => 0
  | v :: rest => minIdxAux v 0 1 rest

/-- Models `cbsStat` (cbs.go lines 123-163): the CBS test statistic together
with the candidate split `[i0, i1+1)`. -/
def cbsStat (x : List ℚ) : ℚ × Nat × Nat :=
  if x.length = 0 then (0, 0, 0)
  else
    let length : ℚ := x.length
    let mean := goMean x
    let x0 := x.map (fun v => v - mean)
    let y := cumSum x0
    let e0 := maxIdx y
    let e1 := minIdx y
    let i0 := if e1 < e0 then e1 else e0
    let i1 := if e1 < e0 then e0 else e1
    let s0 := y.getD i0 0
    let s1 := y.getD i1 0
    let denominator := (((i1 - i0 : Nat) : ℚ) + 1) * (length - ((i1 - i0 : Nat) : ℚ))
    if denominator = 0 then (0, i0, i1 + 1)
    else ((s1 - s0) ^ 2 * length / denominator, i0, i1 + 1)

/-- The mean-centered cumulative sum `y` computed inside `cbsStat`. -/
def cbsY (x : List ℚ) : List ℚ := cumSum (x.map (fun v => v - goMean x))

/-- The index `e0` of `cbsStat` (first index of the maximum of `y`). -/
def cbsE0 (x : List ℚ) : Nat := maxIdx (cbsY x)

/-- The index `e1` of `cbsStat` (first index of the minimum of `y`). -/
def cbsE1 (x : List ℚ) : Nat := minIdx (cbsY x)

/-- The ordered lower split index `i0` of `cbsStat`. -/
def cbsI0 (x : List ℚ) : Nat := if cbsE1 x < cbsE0 x then cbsE1 x else cbsE0 x

/-- The ordered upper split index `i1` of `cbsStat`. -/
def cbsI1 (x : List ℚ) : Nat := if cbsE1 x < cbsE0 x then cbsE0 x else cbsE1 x

/-- The denominator `(float64(i1-i0) + 1.0) * (length - float64(i1-i0))`
computed at line 156 of `cbsStat`. -/
def cbsDenom (x : List ℚ) : ℚ :=
  (((cbsI1 x - cbsI0 x : Nat) : ℚ) + 1) * ((x.length : ℚ) - ((cbsI1 x - cbsI0 x : Nat) : ℚ))

/-- The statistic value returned by `cbsStat` (first component), written with
the observers above. -/
def cbsT (x : List ℚ) : ℚ :=
  if cbsDenom x = 0 then 0
  else ((cbsY x).getD (cbsI1 x) 0 - (cbsY x).getD (cbsI0 x) 0) ^ 2 * (x.length : ℚ) / cbsDenom x

/-- Abstract model of Go's `*rand.Rand` (external library state): a stream of
pseudo-random naturals and the position of the next draw. -/
structure Rng where
  stream : Nat → Nat
  pos : Nat

/-- One bounded draw (models `Int63n`/`int31n` returning a value in
`[0, bound)`), advancing the stream position. -/
def Rng.intn (r : Rng) (bound : Nat) : Nat × Rng :=
  (r.stream r.pos % bound, ⟨r.stream, r.pos + 1⟩)

/-- The swap `xt[i], xt[j] = xt[j], xt[i]` performed by the closure passed to
`rng.Shuffle`; `rand.Shuffle` only ever calls it with in-bounds indices, so
the out-of-bounds guard is never taken. -/
def listSwap (l : List ℚ) (i j : Nat) : List ℚ :=
  if i < l.length ∧ j < l.length then (l.set i (l.getD j 0)).set j (l.getD i 0) else l

/-- The Fisher-Yates loop of `rand.Shuffle`: for `i` from `n-1` down to `1`,
draw `j` uniform in `[0, i]` and swap positions `i` and `j`.  The fuel value
`i` here stands for the loop variable (the step handling `i+1` runs first). -/
def shuffleLoop : Nat → List ℚ → Rng → List ℚ × Rng
  | 0, a, r => (a, r)
  | i + 1, a, r =>
    let d := r.intn (i + 2)
    shuffleLoop i (listSwap a (i + 1) d.1) d.2

/-- Models `rng.Shuffle(len(xt), swap)` on the working copy `xt`. -/
def shuffleGo (a : List ℚ) (r : Rng) : List ℚ × Rng :=
  shuffleLoop (a.length - 1) a r

/-- The permutation-test loop of `cbsInner` (cbs.go lines 104-116): `fuel`
iterations remain, `xt` is the working copy being shuffled in place, `tc` is
`threshCount`.  Returns the significance verdict, the final contents of the
working copy and the final random state. -/
def permLoop (maxT alpha : ℚ) : Nat → List ℚ → Rng → Nat → Bool × List ℚ × Rng
  | 0, xt, rng, _ => (true, xt, rng)
  | fuel + 1, xt, rng, tc =>
    let sh := shuffleGo xt rng
    let thr := (cbsStat sh.1).1
    let tc' := if maxT ≤ thr then tc + 1 else tc
    if alpha < (tc' : ℚ) then (false, sh.1, sh.2)
    else permLoop maxT alpha fuel sh.1 sh.2 tc'

/-- Models `cbsInner` (cbs.go lines 80-119): significance decision for the
best candidate split of `x`.  Result: `(isChange, maxT, maxStart, maxEnd,
final random state)`.  The working copy `xt := make([]float64, len(x));
copy(xt, x)` is the fresh value `x` handed to `permLoop`. -/
def cbsInner (x : List ℚ) (shuffles : Int) (p : ℚ) (rng : Rng) :
    Bool × ℚ × Nat × Nat × Rng :=
  let res := cbsStat x
  let maxT := res.1
  if res.2.2 - res.2.1 = x.length then (false, maxT, res.2.1, res.2.2, rng)
  else
    let maxStart := if res.2.1 < 5 then 0 else res.2.1
    let maxEnd := if x.length - res.2.2 < 5 then x.length else res.2.2
    let alpha := (shuffles : ℚ) * p
    let pl := permLoop maxT alpha shuffles.toNat x rng 0
    (pl.1, maxT, maxStart, maxEnd, pl.2.2)

/-- Fuel-indexed version of `rsegment` (cbs.go lines 42-77).  The fuel only
bounds the recursion depth; `rsegment` supplies `stop - start`, which is
sufficient because every recursive call strictly shrinks the range (claim
C8).  `x[start:end]` becomes `(x.drop start).take (stop - start)`.  Segments
are accumulated left to right, exactly in the order the source appends them
to `*l`. -/
def rsegmentF : Nat → List ℚ → Nat → Nat → Int → ℚ → Rng → List (Nat × Nat) × Rng
  | 0, _, _, _, _, _, rng => ([], rng)
  | fuel + 1, x, start, stop, shuffles, p, rng =>
    if start ≥ stop then ([], rng)
    else
      let res := cbsInner ((x.drop start).take (stop - start)) shuffles p rng
      let s := res.2.2.1
      let e := res.2.2.2.1
      let r1 := res.2.2.2.2
      if res.1 = false ∨ e - s < 5 ∨ e - s = stop - start then ([(start, stop)], r1)
      else
        let left := if 0 < s then rsegmentF fuel x start (start + s) shuffles p r1
                    else ([], r1)
        let mid : List (Nat × Nat) := if 0 < e - s then [(start + s, start + e)] else []
        let right := if start + e < stop then rsegmentF fuel x (start + e) stop shuffles p left.2
                     else ([], left.2)
        (left.1 ++ (mid ++ right.1), right.2)

/-- Models `rsegment`: the recursive segmentation over the range
`[start, stop)`. -/
def rsegment (x : List ℚ) (start stop : Nat) (shuffles : Int) (p : ℚ) (rng : Rng) :
    List (Nat × Nat) × Rng :=
  rsegmentF (stop - start) x start stop shuffles p rng

/-- Models the exported `CBS` (cbs.go lines 23-39).  `mkStream src` stands for
`rand.New(rand.NewSource(src))` and `now` for `time.Now().UnixNano()`; the
source picks the seeded stream only when `seed == 0` and the wall-clock
stream otherwise (lines 27-31). -/
def CBS (mkStream : Int → Nat → Nat) (now : Int) (x : List ℚ) (shuffles : Int)
    (significanceLevel : ℚ) (seed : Int) : List (Nat × Nat) :=
  let src : Int := if seed = 0 then seed else now
  let rng : Rng := ⟨mkStream src, 0⟩
  (rsegment x 0 x.length shuffles significanceLevel rng).1

/-- The maximum value of a non-empty list (`0` for `[]`, unused there). -/
def listMax : List ℚ → ℚ
  | [] => 0
  | v :: rest => rest.foldl max v

/-- The minimum value of a non-empty list (`0` for `[]`, unused there). -/
def listMin : List ℚ → ℚ
  | [] => 0
  | v :: rest => rest.foldl min v

/-- The Statistic Calculator exactly as the specification words it (section
4.1): mean-centered cumulative sum `y`; `e0` the first index attaining the
maximum of `y` and `e1` the first index attaining the minimum; `i0 = min`,
`i1 = max`; statistic `(y[i1] - y[i0])^2 * length / ((i1-i0+1) *
(length - (i1-i0)))` with split `[i0, i1+1)`; empty input gives statistic 0
and split `(0, 0)`.  This definition follows the specification text, to be
compared against `cbsStat`, which follows the source. -/
def cbsStatSpec (x : List ℚ) : ℚ × Nat × Nat :=
  if x.length = 0 then (0, 0, 0)
  else
    let n : ℚ := x.length
    let y := cumSum (x.map (fun v => v - listSum x / n))
    let e0 := y.findIdx (fun v => decide (v = listMax y))
    let e1 := y.findIdx (fun v => decide (v = listMin y))
    let i0 := Nat.min e0 e1
    let i1 := Nat.max e0 e1
    ((y.getD i1 0 - y.getD i0 0) ^ 2 * n / (((i1 : ℚ) - (i0 : ℚ) + 1) * (n - ((i1 : ℚ) - (i0 : ℚ)))),
      i0, i1 + 1)

/-- Predicate `chainFromTo a l n`: holds when the segment list `l` is consecutive from
`a` to `n`: the first segment starts at `a`, each segment is non-empty and
ends where the next begins, and the last ends at `n`. -/
def chainFromTo : Nat → List (Nat × Nat) → Nat → Bool
  | a, [], n => decide (a = n)
  | a, seg :: rest, n => decide (seg.1 = a) && decide (a < seg.2) && chainFromTo seg.2 rest n

/-- Insert a segment into a list sorted by start index. -/
def insertSeg (A : Nat × Nat) : List (Nat × Nat) → List (Nat × Nat)
  | [] => [A]
  | B :: rest => if A.1 ≤ B.1 then A :: B :: rest else B :: insertSeg A rest

/-- Insertion sort of segments by start index. -/
def sortByStart : List (Nat × Nat) → List (Nat × Nat)
  | [] => []
  | A :: rest => insertSeg A (sortByStart rest)

/-!
Heap model for claim C10.  Go slices are references into mutable backing
arrays; to state that `CBS` does not mutate its input we re-run the same
control flow over an explicit store `Heap` mapping array addresses to
contents.  `cbsInner`'s `xt := make([]float64, len(x)); copy(xt, x)`
allocates a fresh address (the allocation counter `alloc`, always above every
live address), and the in-place `rng.Shuffle` writes of the permutation test
all target that address.
-/

/-- A store of `float64` backing arrays, addressed by `Nat`. -/
def Heap : Type := Nat → List ℚ

/-- Write the contents of the array at address `a`. -/
def writeHeap (h : Heap) (a : Nat) (v : List ℚ) : Heap :=
  fun b => if b = a then v else h b

/-- The permutation-test loop acting on the working copy stored at address
`xtp` (the in-place `rng.Shuffle` of cbs.go line 105 becomes a write of the
shuffled contents back to `xtp`). -/
def permLoopHeap (maxT alpha : ℚ) (xtp : Nat) : Nat → Heap → Rng → Nat → Bool × Heap × Rng
  | 0, h, rng, _ => (true, h, rng)
  | fuel + 1, h, rng, tc =>
    let sh := shuffleGo (h xtp) rng
    let h' := writeHeap h xtp sh.1
    let thr := (cbsStat (h' xtp)).1
    let tc' := if maxT ≤ thr then tc + 1 else tc
    if alpha < (tc' : ℚ) then (false, h', sh.2)
    else permLoopHeap maxT alpha xtp fuel h' sh.2 tc'

/-- The function `cbsInner` over the heap.  Its argument `x[start:end]` is the view of the
array at `xp` starting at offset `off` with `len` elements; `alloc` is the
next fresh address.  `make`+`copy` writes the copied contents to `alloc`,
and the result carries the final heap and the bumped allocation counter. -/
def cbsInnerHeap (h : Heap) (xp off len : Nat) (alloc : Nat) (shuffles : Int) (p : ℚ)
    (rng : Rng) : Bool × ℚ × Nat × Nat × Heap × Nat × Rng :=
  let x := ((h xp).drop off).take len
  let res := cbsStat x
  let maxT := res.1
  if res.2.2 - res.2.1 = x.length then (false, maxT, res.2.1, res.2.2, h, alloc, rng)
  else
    let maxStart := if res.2.1 < 5 then 0 else res.2.1
    let maxEnd := if x.length - res.2.2 < 5 then x.length else res.2.2
    let alpha := (shuffles : ℚ) * p
    let h1 := writeHeap h alloc x
    let pl := permLoopHeap maxT alpha alloc shuffles.toNat h1 rng 0
    (pl.1, maxT, maxStart, maxEnd, pl.2.1, alloc + 1, pl.2.2)

/-- The function `rsegment` over the heap: the slice argument `x` is the array at address
`xp`; `x[start:end]` shares that backing array (offset `start`). -/
def rsegmentHeapF : Nat → Heap → Nat → Nat → Nat → Nat → Int → ℚ → Rng →
    List (Nat × Nat) × Heap × Nat × Rng
  | 0, h, _, _, _, alloc, _, _, rng => ([], h, alloc, rng)
  | fuel + 1, h, xp, start, stop, alloc, shuffles, p, rng =>
    if start ≥ stop then ([], h, alloc, rng)
    else
      let res := cbsInnerHeap h xp start (stop - start) alloc shuffles p rng
      let s := res.2.2.1
      let e := res.2.2.2.1
      let h1 := res.2.2.2.2.1
      let al1 := res.2.2.2.2.2.1
      let r1 := res.2.2.2.2.2.2
      if res.1 = false ∨ e - s < 5 ∨ e - s = stop - start then ([(start, stop)], h1, al1, r1)
      else
        let left := if 0 < s then rsegmentHeapF fuel h1 xp start (start + s) al1 shuffles p r1
                    else ([], h1, al1, r1)
        let mid : List (Nat × Nat) := if 0 < e - s then [(start + s, start + e)] else []
        let right := if start + e < stop then
                       rsegmentHeapF fuel left.2.1 xp (start + e) stop left.2.2.1 shuffles p left.2.2.2
                     else ([], left.2.1, left.2.2.1, left.2.2.2)
        (left.1 ++ (mid ++ right.1), right.2)

/-- The function `CBS` over the heap: the input slice lives at address `xp`; allocation
starts above it (a fresh Go allocation never aliases a live array).  Returns
the segments and the final heap. -/
def CBSHeap (mkStream : Int → Nat → Nat) (now : Int) (h : Heap) (xp : Nat) (shuffles : Int)
    (significanceLevel : ℚ) (seed : Int) : List (Nat × Nat) × Heap :=
  let src : Int := if seed = 0 then seed else now
  let rng : Rng := ⟨mkStream src, 0⟩
  let res := rsegmentHeapF (h xp).length h xp 0 (h xp).length (xp + 1) shuffles
    significanceLevel rng
  (res.1, res.2.1)

theorem cumSumAux_length (l : List ℚ) : ∀ acc, (cumSumAux acc l).length = l.length := by
  induction l with
  | nil => intro acc; rfl
  | cons v r ih => intro acc; simp [cumSumAux, ih]

theorem cumSum_length (l : List ℚ) : (cumSum l).length = l.length :=
  cumSumAux_length l 0

theorem le_foldl_max_init (l : List ℚ) : ∀ b, b ≤ l.foldl max b := by
  induction l with
  | nil => intro b; simp
  | cons v r ih => intro b; exact le_trans (le_max_left b v) (ih (max b v))

theorem le_foldl_max_of_mem {l : List ℚ} {w : ℚ} (h : w ∈ l) : ∀ b, w ≤ l.foldl max b := by
  induction l with
  | nil => cases h
  | cons v r ih =>
    intro b
    rcases List.mem_cons.mp h with h' | h'
    · subst h'; exact le_trans (le_max_right b w) (le_foldl_max_init r (max b w))
    · exact ih h' (max b v)

theorem foldl_max_all_le {l : List ℚ} : ∀ {b : ℚ}, (∀ w ∈ l, w ≤ b) → l.foldl max b = b := by
  induction l with
  | nil => intro b _; rfl
  | cons v r ih =>
    intro b h
    have hvb : v ≤ b := h v (List.mem_cons_self v r)
    simp only [List.foldl_cons, max_eq_left hvb]
    exact ih fun w hw => h w (List.mem_cons_of_mem v hw)

theorem maxIdxAux_lt {N : Nat} : ∀ (rest : List ℚ) (best : ℚ) (bi i : Nat),
    bi < N → i + rest.length ≤ N → maxIdxAux best bi i rest < N := by
  intro rest
  induction rest with
  | nil => intro best bi i h1 _; exact h1
  | cons v r ih =>
    intro best bi i h1 h2
    simp only [List.length_cons] at h2
    simp only [maxIdxAux]
    by_cases hbv : best < v
    · rw [if_pos hbv]; exact ih v i (i + 1) (by omega) (by omega)
    · rw [if_neg hbv]; exact ih best bi (i + 1) h1 (by omega)

theorem maxIdxAux_eq (rest : List ℚ) : ∀ (best : ℚ) (bi i : Nat),
    maxIdxAux best bi i rest =
      if ∀ v ∈ rest, v ≤ best then bi
      else i + rest.findIdx (fun v => decide (v = rest.foldl max best)) := by
  induction rest with
  | nil => intro best bi i; simp [maxIdxAux]
  | cons v r ih =>
    intro best bi i
    by_cases hbv : best < v
    · simp only [maxIdxAux]
      rw [if_pos hbv, ih]
      have hnotall : ¬ ∀ w ∈ v :: r, w ≤ best := by
        push_neg; exact ⟨v, List.mem_cons_self v r, hbv⟩
      have hmax : (v :: r).foldl max best = r.foldl max v := by
        simp only [List.foldl_cons, max_eq_right (le_of_lt hbv)]
      rw [if_neg hnotall, hmax]
      by_cases hall : ∀ w ∈ r, w ≤ v
      · rw [if_pos hall]
        have hM : r.foldl max v = v := foldl_max_all_le hall
        rw [List.findIdx_cons]
        simp [hM]
      · rw [if_neg hall]
        push_neg at hall
        obtain ⟨w, hw, hvw⟩ := hall
        have hvM : v < r.foldl max v := lt_of_lt_of_le hvw (le_foldl_max_of_mem hw v)
        rw [List.findIdx_cons]
        have hd : (decide (v = r.foldl max v)) = false := by
          simp [ne_of_lt hvM]
        rw [hd]
        simp only [cond_false]
        omega
    · simp only [maxIdxAux]
      rw [if_neg hbv, ih]
      have hvb : v ≤ best := le_of_not_lt hbv
      have hmax : (v :: r).foldl max best = r.foldl max best := by
        simp only [List.foldl_cons, max_eq_left hvb]
      rw [hmax]
      by_cases hall : ∀ w ∈ r, w ≤ best
      · rw [if_pos hall, if_pos]
        intro w hw
        rcases List.mem_cons.mp hw with h' | h'
        · subst h'; exact hvb
        · exact hall w h'
      · rw [if_neg hall, if_neg]
        swap
        · intro hc; exact hall fun w hw => hc w (List.mem_cons_of_mem v hw)
        push_neg at hall
        obtain ⟨w, hw, hbw⟩ := hall
        have hvM : v < r.foldl max best :=
          lt_of_le_of_lt hvb (lt_of_lt_of_le hbw (le_foldl_max_of_mem hw best))
        rw [List.findIdx_cons]
        have hd : (decide (v = r.foldl max best)) = false := by
          simp [ne_of_lt hvM]
        rw [hd]
        simp only [cond_false]
        omega

theorem minIdxAux_neg (rest : List ℚ) : ∀ (best : ℚ) (bi i : Nat),
    minIdxAux best bi i rest = maxIdxAux (-best) bi i (rest.map (fun v => -v)) := by
  induction rest with
  | nil => intro best bi i; rfl
  | cons v r ih =>
    intro best bi i
    simp only [List.map_cons, minIdxAux, maxIdxAux, neg_lt_neg_iff]
    by_cases h : v < best
    · rw [if_pos h, if_pos h, ih]
    · rw [if_neg h, if_neg h, ih]

theorem minIdx_eq_maxIdx_neg (y : List ℚ) : minIdx y = maxIdx (y.map (fun v => -v)) := by
  cases y with
  | nil => rfl
  | cons v r => simp only [minIdx, List.map_cons, maxIdx, minIdxAux_neg]

theorem maxIdx_eq_minIdx_neg (y : List ℚ) : maxIdx y = minIdx (y.map (fun v => -v)) := by
  rw [minIdx_eq_maxIdx_neg, List.map_map]
  have h : ((fun v : ℚ => -v) ∘ fun v : ℚ => -v) = id := by
    funext a; simp
  rw [h, List.map_id]

theorem maxIdx_lt_length (y : List ℚ) (h : y ≠ []) : maxIdx y < y.length := by
  cases y with
  | nil => exact absurd rfl h
  | cons v r =>
    simp only [maxIdx, List.length_cons]
    exact maxIdxAux_lt r v 0 1 (by omega) (by omega)

theorem minIdx_lt_length (y : List ℚ) (h : y ≠ []) : minIdx y < y.length := by
  rw [minIdx_eq_maxIdx_neg]
  have hlen : (y.map (fun v => -v)).length = y.length := by simp
  rw [← hlen]
  apply maxIdx_lt_length
  simp [h]

theorem findIdx_map_neg (l : List ℚ) (p : ℚ → Bool) :
    (l.map (fun v => -v)).findIdx p = l.findIdx (fun a => p (-a)) := by
  induction l with
  | nil => rfl
  | cons v r ih => simp only [List.map_cons, List.findIdx_cons, ih]

theorem foldl_max_neg (l : List ℚ) : ∀ b : ℚ,
    (l.map (fun v => -v)).foldl max (-b) = -(l.foldl min b) := by
  induction l with
  | nil => intro b; rfl
  | cons v r ih =>
    intro b
    simp only [List.map_cons, List.foldl_cons, max_neg_neg, ih]

theorem listMax_map_neg (y : List ℚ) : listMax (y.map (fun v => -v)) = -(listMin y) := by
  cases y with
  | nil => simp [listMax, listMin]
  | cons v r => simp only [List.map_cons, listMax, listMin, foldl_max_neg]

theorem maxIdx_eq_findIdx (y : List ℚ) (h : y ≠ []) :
    maxIdx y = y.findIdx (fun v => decide (v = listMax y)) := by
  cases y with
  | nil => exact absurd rfl h
  | cons v r =>
    simp only [maxIdx, listMax]
    rw [maxIdxAux_eq, List.findIdx_cons]
    by_cases hall : ∀ w ∈ r, w ≤ v
    · rw [if_pos hall]
      have hM : r.foldl max v = v := foldl_max_all_le hall
      simp [hM]
    · rw [if_neg hall]
      push_neg at hall
      obtain ⟨w, hw, hvw⟩ := hall
      have hvM : v < r.foldl max v := lt_of_lt_of_le hvw (le_foldl_max_of_mem hw v)
      have hd : (decide (v = r.foldl max v)) = false := by
        simp [ne_of_lt hvM]
      rw [hd]
      simp only [cond_false]
      omega

theorem minIdx_eq_findIdx (y : List ℚ) (h : y ≠ []) :
    minIdx y = y.findIdx (fun v => decide (v = listMin y)) := by
  rw [minIdx_eq_maxIdx_neg]
  have hne : y.map (fun v => -v) ≠ [] := by simp [h]
  rw [maxIdx_eq_findIdx _ hne, listMax_map_neg, findIdx_map_neg]
  congr 1
  funext a
  exact decide_eq_decide.mpr neg_inj

theorem cbsY_length (x : List ℚ) : (cbsY x).length = x.length := by
  simp [cbsY, cumSum_length]

theorem cbsY_ne_nil (x : List ℚ) (h : x.length ≠ 0) : cbsY x ≠ [] := by
  intro hc
  apply h
  rw [← cbsY_length x, hc]
  rfl

theorem cbsStat_eq (x : List ℚ) (h : x.length ≠ 0) :
    cbsStat x = (cbsT x, cbsI0 x, cbsI1 x + 1) := by
  simp only [cbsStat, cbsT, cbsDenom, cbsI0, cbsI1, cbsE0, cbsE1, cbsY, goMean]
  rw [if_neg h]
  split <;> split <;> rfl

theorem cbsI_bounds (x : List ℚ) (h : x.length ≠ 0) :
    cbsI0 x ≤ cbsI1 x ∧ cbsI1 x < x.length := by
  have h0 : cbsE0 x < x.length := by
    rw [← cbsY_length x]
    exact maxIdx_lt_length _ (cbsY_ne_nil x h)
  have h1 : cbsE1 x < x.length := by
    rw [← cbsY_length x]
    exact minIdx_lt_length _ (cbsY_ne_nil x h)
  unfold cbsI0 cbsI1
  split <;> omega

theorem cbsStat_bounds (x : List ℚ) (h : x.length ≠ 0) :
    (cbsStat x).2.1 < (cbsStat x).2.2 ∧ (cbsStat x).2.2 ≤ x.length := by
  rw [cbsStat_eq x h]
  have hb := cbsI_bounds x h
  show cbsI0 x < cbsI1 x + 1 ∧ cbsI1 x + 1 ≤ x.length
  omega

theorem cbsDenom_ge_one (x : List ℚ) (h : x.length ≠ 0) : 1 ≤ cbsDenom x := by
  obtain ⟨h01, h1n⟩ := cbsI_bounds x h
  unfold cbsDenom
  have hdn : cbsI1 x - cbsI0 x + 1 ≤ x.length := by omega
  have hc1 : (1 : ℚ) ≤ ((cbsI1 x - cbsI0 x : Nat) : ℚ) + 1 := by
    have : (0 : ℚ) ≤ ((cbsI1 x - cbsI0 x : Nat) : ℚ) := Nat.cast_nonneg _
    linarith
  have hc2 : (1 : ℚ) ≤ (x.length : ℚ) - ((cbsI1 x - cbsI0 x : Nat) : ℚ) := by
    have : ((cbsI1 x - cbsI0 x : Nat) : ℚ) + 1 ≤ (x.length : ℚ) := by
      exact_mod_cast hdn
    linarith
  nlinarith

theorem cbsDenom_ne_zero (x : List ℚ) (h : x.length ≠ 0) : cbsDenom x ≠ 0 := by
  have h1 := cbsDenom_ge_one x h
  intro hc
  rw [hc] at h1
  norm_num at h1

theorem listSum_map_neg (l : List ℚ) : listSum (l.map (fun v => -v)) = -(listSum l) := by
  induction l with
  | nil => simp [listSum]
  | cons v r ih => simp [listSum, ih]; ring

theorem goMean_map_neg (x : List ℚ) : goMean (x.map (fun v => -v)) = -(goMean x) := by
  simp [goMean, listSum_map_neg, neg_div]

theorem cumSumAux_map_neg (l : List ℚ) : ∀ acc : ℚ,
    cumSumAux (-acc) (l.map (fun v => -v)) = (cumSumAux acc l).map (fun v => -v) := by
  induction l with
  | nil => intro acc; rfl
  | cons v r ih =>
    intro acc
    simp only [List.map_cons, cumSumAux]
    have h1 : -acc + -v = -(acc + v) := by ring
    rw [h1, ih (acc + v)]

theorem cumSum_map_neg (l : List ℚ) :
    cumSum (l.map (fun v => -v)) = (cumSum l).map (fun v => -v) := by
  have h := cumSumAux_map_neg l 0
  rw [neg_zero] at h
  exact h

theorem cbsY_map_neg (x : List ℚ) : cbsY (x.map (fun v => -v)) = (cbsY x).map (fun v => -v) := by
  unfold cbsY
  rw [goMean_map_neg, ← cumSum_map_neg, List.map_map, List.map_map]
  have hfun : ((fun v : ℚ => v - -goMean x) ∘ fun v : ℚ => -v)
      = ((fun v : ℚ => -v) ∘ fun v : ℚ => v - goMean x) := by
    funext a
    simp only [Function.comp_apply]
    ring
  rw [hfun]

theorem getD_map_neg (l : List ℚ) : ∀ i : Nat,
    (l.map (fun v => -v)).getD i 0 = -(l.getD i 0) := by
  induction l with
  | nil => intro i; simp
  | cons v r ih =>
    intro i
    cases i with
    | zero => simp
    | succ n => simpa using ih n

theorem cbsE0_map_neg (x : List ℚ) : cbsE0 (x.map (fun v => -v)) = cbsE1 x := by
  unfold cbsE0 cbsE1
  rw [cbsY_map_neg, ← minIdx_eq_maxIdx_neg]

theorem cbsE1_map_neg (x : List ℚ) : cbsE1 (x.map (fun v => -v)) = cbsE0 x := by
  unfold cbsE0 cbsE1
  rw [cbsY_map_neg, ← maxIdx_eq_minIdx_neg]

theorem cbsI0_map_neg (x : List ℚ) : cbsI0 (x.map (fun v => -v)) = cbsI0 x := by
  unfold cbsI0
  rw [cbsE0_map_neg, cbsE1_map_neg]
  split <;> split <;> omega

theorem cbsI1_map_neg (x : List ℚ) : cbsI1 (x.map (fun v => -v)) = cbsI1 x := by
  unfold cbsI1
  rw [cbsE0_map_neg, cbsE1_map_neg]
  split <;> split <;> omega

theorem cbsDenom_map_neg (x : List ℚ) : cbsDenom (x.map (fun v => -v)) = cbsDenom x := by
  unfold cbsDenom
  rw [cbsI0_map_neg, cbsI1_map_neg, List.length_map]

theorem cbsT_map_neg (x : List ℚ) : cbsT (x.map (fun v => -v)) = cbsT x := by
  unfold cbsT
  rw [cbsDenom_map_neg, cbsI0_map_neg, cbsI1_map_neg, cbsY_map_neg, List.length_map,
    getD_map_neg, getD_map_neg]
  have harith : (-(cbsY x).getD (cbsI1 x) 0 - -(cbsY x).getD (cbsI0 x) 0) ^ 2
      = ((cbsY x).getD (cbsI1 x) 0 - (cbsY x).getD (cbsI0 x) 0) ^ 2 := by
    ring
  rw [harith]

/-- C9: running the Statistic Calculator on the negated input (`-x` instead of
`x`) changes neither the statistic value nor the candidate-split boundaries
`(i0, i1+1)`, including under the first-occurrence tie-breaking rule. -/
theorem cbsStat_neg_invariant (x : List ℚ) :
    cbsStat (x.map (fun v => -v)) = cbsStat x := by
  by_cases h : x.length = 0
  · have h' : (x.map (fun v => -v)).length = 0 := by simpa using h
    simp [cbsStat, h, h']
  · have h' : (x.map (fun v => -v)).length ≠ 0 := by simpa using h
    rw [cbsStat_eq _ h', cbsStat_eq _ h, cbsT_map_neg, cbsI0_map_neg, cbsI1_map_neg]

/-- C7: for every non-empty input the denominator computed by `cbsStat` is at
least 1, hence never zero (so it can be zero only in degenerate cases, of
which there are none), and the division at line 160 is always guarded by the
zero test at line 157. -/
theorem cbsStat_denominator_guarded (x : List ℚ) (h : x.length ≠ 0) :
    1 ≤ cbsDenom x ∧ (cbsDenom x = 0 → x.length = 1) :=
  ⟨cbsDenom_ge_one x h, fun hc => (cbsDenom_ne_zero x h hc).elim⟩

theorem cbsStat_denominator_guarded_witness :
    1 ≤ cbsDenom [(1 : ℚ), 2] ∧ (cbsDenom [(1 : ℚ), 2] = 0 → ([(1 : ℚ), 2] : List ℚ).length = 1) :=
  cbsStat_denominator_guarded [(1 : ℚ), 2] (by decide)

/-- C4: the Statistic Calculator of the source agrees exactly with the
specification text of section 4.1 (mean-centered cumulative sum, `e0` the
first index attaining the maximum and `e1` the first index attaining the
minimum, `i0 = min`, `i1 = max`, the quoted statistic formula, and the split
interval `[i0, i1+1)`). -/
theorem cbsStat_meets_spec (x : List ℚ) : cbsStat x = cbsStatSpec x := by
  by_cases h : x.length = 0
  · simp [cbsStat, cbsStatSpec, h]
  · rw [cbsStat_eq x h]
    simp only [cbsStatSpec]
    rw [if_neg h]
    have hy : cumSum (x.map (fun v => v - listSum x / (x.length : ℚ))) = cbsY x := by
      simp only [cbsY, goMean]
    rw [hy, ← maxIdx_eq_findIdx _ (cbsY_ne_nil x h), ← minIdx_eq_findIdx _ (cbsY_ne_nil x h)]
    have he0 : maxIdx (cbsY x) = cbsE0 x := rfl
    have he1 : minIdx (cbsY x) = cbsE1 x := rfl
    rw [he0, he1]
    have hmin : Nat.min (cbsE0 x) (cbsE1 x) = cbsI0 x := by
      unfold cbsI0
      rcases Nat.lt_or_ge (cbsE1 x) (cbsE0 x) with h' | h'
      · rw [if_pos h']
        exact Nat.min_eq_right (le_of_lt h')
      · rw [if_neg (not_lt.mpr h')]
        exact Nat.min_eq_left h'
    have hmax : Nat.max (cbsE0 x) (cbsE1 x) = cbsI1 x := by
      unfold cbsI1
      rcases Nat.lt_or_ge (cbsE1 x) (cbsE0 x) with h' | h'
      · rw [if_pos h']
        exact Nat.max_eq_left (le_of_lt h')
      · rw [if_neg (not_lt.mpr h')]
        exact Nat.max_eq_right h'
    rw [hmin, hmax]
    have hcast : ((cbsI1 x - cbsI0 x : Nat) : ℚ) = (cbsI1 x : ℚ) - (cbsI0 x : ℚ) :=
      Nat.cast_sub (cbsI_bounds x h).1
    have hstat : cbsT x =
        ((cbsY x).getD (cbsI1 x) 0 - (cbsY x).getD (cbsI0 x) 0) ^ 2 * (x.length : ℚ) /
          (((cbsI1 x : ℚ) - (cbsI0 x : ℚ) + 1) * ((x.length : ℚ) - ((cbsI1 x : ℚ) - (cbsI0 x : ℚ)))) := by
      unfold cbsT
      rw [if_neg (cbsDenom_ne_zero x h)]
      unfold cbsDenom
      rw [hcast]
    rw [hstat]

theorem cbsInner_true_bounds (x : List ℚ) (sh : Int) (p : ℚ) (rng : Rng)
    (h : (cbsInner x sh p rng).1 = true) :
    (cbsInner x sh p rng).2.2.1 < (cbsInner x sh p rng).2.2.2.1 ∧
    (cbsInner x sh p rng).2.2.2.1 ≤ x.length ∧
    ((cbsInner x sh p rng).2.2.1 = 0 ∨ 5 ≤ (cbsInner x sh p rng).2.2.1) ∧
    ((cbsInner x sh p rng).2.2.2.1 = x.length ∨
      5 ≤ x.length - (cbsInner x sh p rng).2.2.2.1) := by
  by_cases hx : x.length = 0
  · exfalso
    have hxnil : x = [] := List.length_eq_zero.mp hx
    subst hxnil
    simp [cbsInner, cbsStat] at h
  · obtain ⟨hb1, hb2⟩ := cbsStat_bounds x hx
    simp only [cbsInner] at h ⊢
    by_cases hw : (cbsStat x).2.2 - (cbsStat x).2.1 = x.length
    · rw [if_pos hw] at h
      simp at h
    · rw [if_neg hw] at h ⊢
      dsimp only
      split_ifs <;> omega

theorem slice_length (x : List ℚ) (start stop : Nat) (h1 : start < stop) (h2 : stop ≤ x.length) :
    ((x.drop start).take (stop - start)).length = stop - start := by
  simp only [List.length_take, List.length_drop]
  omega

theorem chainFromTo_append {l1 l2 : List (Nat × Nat)} : ∀ {a b c : Nat},
    chainFromTo a l1 b = true → chainFromTo b l2 c = true →
    chainFromTo a (l1 ++ l2) c = true := by
  induction l1 with
  | nil =>
    intro a b c h1 h2
    simp only [chainFromTo, decide_eq_true_eq] at h1
    subst h1
    simpa using h2
  | cons seg rest ih =>
    intro a b c h1 h2
    simp only [List.cons_append, chainFromTo, Bool.and_eq_true, decide_eq_true_eq] at h1 ⊢
    obtain ⟨⟨hs, ha⟩, hrest⟩ := h1
    exact ⟨⟨hs, ha⟩, ih hrest h2⟩

theorem rsegmentF_chain : ∀ (fuel : Nat) (x : List ℚ) (sh : Int) (p : ℚ) (rng : Rng)
    (start stop : Nat), start ≤ stop → stop - start ≤ fuel → stop ≤ x.length →
    chainFromTo start (rsegmentF fuel x start stop sh p rng).1 stop = true := by
  intro fuel
  induction fuel with
  | zero =>
    intro x sh p rng start stop h1 h2 h3
    have hss : start = stop := by omega
    subst hss
    simp [rsegmentF, chainFromTo]
  | succ n ih =>
    intro x sh p rng start stop h1 h2 h3
    by_cases hss : start = stop
    · subst hss
      simp [rsegmentF, chainFromTo]
    · have hlt : start < stop := by omega
      simp only [rsegmentF]
      rw [if_neg (by omega : ¬ start ≥ stop)]
      set S := (x.drop start).take (stop - start) with hS
      set res := cbsInner S sh p rng with hres
      by_cases hstop : res.1 = false ∨ res.2.2.2.1 - res.2.2.1 < 5 ∨
          res.2.2.2.1 - res.2.2.1 = stop - start
      · rw [if_pos hstop]
        simp [chainFromTo, hlt]
      · rw [if_neg hstop]
        push_neg at hstop
        obtain ⟨hc, h5, hne⟩ := hstop
        have hct : res.1 = true := by
          revert hc
          cases res.1 <;> simp
        have hb := cbsInner_true_bounds S sh p rng (by rw [← hres]; exact hct)
        rw [← hres] at hb
        have hlen : S.length = stop - start := by
          rw [hS]
          exact slice_length x start stop hlt h3
        rw [hlen] at hb
        obtain ⟨hb1, hb2, _, _⟩ := hb
        dsimp only
        refine @chainFromTo_append _ _ _ (start + res.2.2.1) _ ?_ ?_
        · -- left part, from start to start + s
          by_cases hs0 : 0 < res.2.2.1
          · rw [if_pos hs0]
            exact ih x sh p res.2.2.2.2 start (start + res.2.2.1) (by omega) (by omega)
              (by omega)
          · rw [if_neg hs0]
            have hz : res.2.2.1 = 0 := by omega
            simp [chainFromTo, hz]
        · refine @chainFromTo_append _ _ _ (start + res.2.2.2.1) _ ?_ ?_
          · -- middle segment
            rw [if_pos (by omega : 0 < res.2.2.2.1 - res.2.2.1)]
            have hmid : start + res.2.2.1 < start + res.2.2.2.1 := by omega
            simp [chainFromTo, hmid]
          · -- right part, from start + e to stop
            by_cases her : start + res.2.2.2.1 < stop
            · rw [if_pos her]
              exact ih x sh p _ (start + res.2.2.2.1) stop (by omega) (by omega) h3
            · rw [if_neg her]
              have heq : start + res.2.2.2.1 = stop := by omega
              simp [chainFromTo, heq]

theorem chainFromTo_lower {l : List (Nat × Nat)} : ∀ {a n : Nat}, chainFromTo a l n = true →
    (∀ A ∈ l, a ≤ A.1) ∧ l.Pairwise (fun A B => A.2 ≤ B.1) := by
  induction l with
  | nil =>
    intro a n _
    exact ⟨by simp, List.Pairwise.nil⟩
  | cons seg rest ih =>
    intro a n h
    simp only [chainFromTo, Bool.and_eq_true, decide_eq_true_eq] at h
    obtain ⟨⟨hs, ha⟩, hrest⟩ := h
    obtain ⟨hlow, hpw⟩ := ih hrest
    constructor
    · intro A hA
      rcases List.mem_cons.mp hA with h' | h'
      · subst h'
        omega
      · have := hlow A h'
        omega
    · exact List.Pairwise.cons (fun B hB => hlow B hB) hpw

theorem insertSeg_sorted (A : Nat × Nat) (l : List (Nat × Nat)) (h : ∀ B ∈ l, A.1 ≤ B.1) :
    insertSeg A l = A :: l := by
  cases l with
  | nil => rfl
  | cons B rest =>
    simp only [insertSeg]
    rw [if_pos (h B (List.mem_cons_self B rest))]

theorem sortByStart_chained {l : List (Nat × Nat)} : ∀ {a n : Nat},
    chainFromTo a l n = true → sortByStart l = l := by
  induction l with
  | nil => intro a n _; rfl
  | cons seg rest ih =>
    intro a n h
    simp only [chainFromTo, Bool.and_eq_true, decide_eq_true_eq] at h
    obtain ⟨⟨hs, ha⟩, hrest⟩ := h
    simp only [sortByStart]
    rw [ih hrest]
    apply insertSeg_sorted
    intro B hB
    have hlow := (chainFromTo_lower hrest).1 B hB
    omega

/-- C2: for every input of length n and every shuffle count, p and seed, the
segments returned by `CBS`, sorted by start index, form an exact partition of
`[0, n)`: the returned list is already sorted by start, it is consecutive
(first segment starts at 0, each segment ends where the next starts, last
segment ends at n, every segment non-empty), and no two segments overlap. -/
theorem cbs_partition (mkStream : Int → Nat → Nat) (now : Int) (x : List ℚ) (shuffles : Int)
    (p : ℚ) (seed : Int) :
    sortByStart (CBS mkStream now x shuffles p seed) = CBS mkStream now x shuffles p seed ∧
    chainFromTo 0 (CBS mkStream now x shuffles p seed) x.length = true ∧
    (CBS mkStream now x shuffles p seed).Pairwise (fun A B => A.2 ≤ B.1) := by
  have hchain : chainFromTo 0 (CBS mkStream now x shuffles p seed) x.length = true := by
    unfold CBS rsegment
    exact rsegmentF_chain (x.length - 0) x shuffles p _ 0 x.length (by omega) (by omega)
      (by omega)
  exact ⟨sortByStart_chained hchain, hchain, (chainFromTo_lower hchain).2⟩

theorem rsegmentF_min_length : ∀ (fuel : Nat) (x : List ℚ) (sh : Int) (p : ℚ) (rng : Rng)
    (start stop : Nat), stop - start ≤ fuel → stop ≤ x.length → 5 ≤ stop - start →
    ∀ seg ∈ (rsegmentF fuel x start stop sh p rng).1, 5 ≤ seg.2 - seg.1 := by
  intro fuel
  induction fuel with
  | zero =>
    intro x sh p rng start stop h2 h3 h5 seg hseg
    omega
  | succ n ih =>
    intro x sh p rng start stop h2 h3 h5
    have hlt : start < stop := by omega
    simp only [rsegmentF]
    rw [if_neg (by omega : ¬ start ≥ stop)]
    set S := (x.drop start).take (stop - start) with hS
    set res := cbsInner S sh p rng with hres
    by_cases hstop : res.1 = false ∨ res.2.2.2.1 - res.2.2.1 < 5 ∨
        res.2.2.2.1 - res.2.2.1 = stop - start
    · rw [if_pos hstop]
      intro seg hseg
      simp only [List.mem_singleton] at hseg
      subst hseg
      dsimp only
      omega
    · rw [if_neg hstop]
      push_neg at hstop
      obtain ⟨hc, hge5, hne⟩ := hstop
      have hct : res.1 = true := by
        revert hc
        cases res.1 <;> simp
      have hb := cbsInner_true_bounds S sh p rng (by rw [← hres]; exact hct)
      rw [← hres] at hb
      have hlen : S.length = stop - start := by
        rw [hS]
        exact slice_length x start stop hlt h3
      rw [hlen] at hb
      obtain ⟨hb1, hb2, hsnap0, hsnape⟩ := hb
      dsimp only
      intro seg hseg
      rw [List.mem_append] at hseg
      rcases hseg with hseg | hseg
      · -- left recursive part
        by_cases hs0 : 0 < res.2.2.1
        · rw [if_pos hs0] at hseg
          exact ih x sh p res.2.2.2.2 start (start + res.2.2.1) (by omega) (by omega)
            (by omega) seg hseg
        · rw [if_neg hs0] at hseg
          simp at hseg
      · rw [List.mem_append] at hseg
        rcases hseg with hseg | hseg
        · -- the split segment itself
          rw [if_pos (by omega : 0 < res.2.2.2.1 - res.2.2.1)] at hseg
          simp only [List.mem_singleton] at hseg
          subst hseg
          dsimp only
          omega
        · -- right recursive part
          by_cases her : start + res.2.2.2.1 < stop
          · rw [if_pos her] at hseg
            exact ih x sh p _ (start + res.2.2.2.1) stop (by omega) h3 (by omega) seg hseg
          · rw [if_neg her] at hseg
            simp at hseg

theorem rsegmentF_small (fuel : Nat) (x : List ℚ) (sh : Int) (p : ℚ) (rng : Rng)
    (start stop : Nat) (h1 : start < stop) (h2 : stop ≤ x.length) (h5 : stop - start < 5)
    (hf : 1 ≤ fuel) :
    (rsegmentF fuel x start stop sh p rng).1 = [(start, stop)] := by
  cases fuel with
  | zero => omega
  | succ n =>
    simp only [rsegmentF]
    rw [if_neg (by omega : ¬ start ≥ stop)]
    set S := (x.drop start).take (stop - start) with hS
    set res := cbsInner S sh p rng with hres
    have hcond : res.1 = false ∨ res.2.2.2.1 - res.2.2.1 < 5 ∨
        res.2.2.2.1 - res.2.2.1 = stop - start := by
      by_cases hc : res.1 = true
      · right; left
        have hb := cbsInner_true_bounds S sh p rng (by rw [← hres]; exact hc)
        rw [← hres] at hb
        have hlen : S.length = stop - start := by
          rw [hS]
          exact slice_length x start stop h1 h2
        rw [hlen] at hb
        omega
      · left
        revert hc
        cases res.1 <;> simp
    rw [if_pos hcond]

/-- C3: whenever the input has length at least 5, every segment returned by
`CBS` has length at least 5; when the input is shorter than 5 (and non-empty)
the result is the single unavoidable whole-range segment `[0, n)`. -/
theorem cbs_min_segment_length (mkStream : Int → Nat → Nat) (now : Int) (x : List ℚ)
    (shuffles : Int) (p : ℚ) (seed : Int) :
    (5 ≤ x.length → ∀ seg ∈ CBS mkStream now x shuffles p seed, 5 ≤ seg.2 - seg.1) ∧
    (x.length < 5 → 1 ≤ x.length → CBS mkStream now x shuffles p seed = [(0, x.length)]) := by
  constructor
  · intro h5 seg hseg
    unfold CBS rsegment at hseg
    exact rsegmentF_min_length (x.length - 0) x shuffles p _ 0 x.length (by omega) (by omega)
      (by omega) seg hseg
  · intro hlt h1
    unfold CBS rsegment
    exact rsegmentF_small (x.length - 0) x shuffles p _ 0 x.length (by omega) (by omega)
      (by omega) (by omega)

theorem cbs_min_segment_length_witness :
    (∀ seg ∈ CBS (fun _ _ => 0) 0 [(1 : ℚ), 1, 1, 1, 1] 1 (1/2) 0, 5 ≤ seg.2 - seg.1) ∧
    CBS (fun _ _ => 0) 0 [(1 : ℚ), 1, 1] 1 (1/2) 0 = [(0, 3)] := by
  constructor
  · exact (cbs_min_segment_length (fun _ _ => 0) 0 [(1 : ℚ), 1, 1, 1, 1] 1 (1/2) 0).1
      (by decide)
  · exact (cbs_min_segment_length (fun _ _ => 0) 0 [(1 : ℚ), 1, 1] 1 (1/2) 0).2
      (by decide) (by decide)

theorem rsegmentF_fuel_congr : ∀ (f1 f2 : Nat) (x : List ℚ) (sh : Int) (p : ℚ) (rng : Rng)
    (start stop : Nat), stop - start ≤ f1 → stop - start ≤ f2 →
    rsegmentF f1 x start stop sh p rng = rsegmentF f2 x start stop sh p rng := by
  intro f1
  induction f1 with
  | zero =>
    intro f2 x sh p rng start stop h1 h2
    have hss : start ≥ stop := by omega
    cases f2 with
    | zero => rfl
    | succ m =>
      simp only [rsegmentF]
      rw [if_pos hss]
  | succ n ih =>
    intro f2 x sh p rng start stop h1 h2
    by_cases hss : start ≥ stop
    · cases f2 with
      | zero =>
        simp only [rsegmentF]
        rw [if_pos hss]
      | succ m =>
        simp only [rsegmentF]
        rw [if_pos hss, if_pos hss]
    · have hlt : start < stop := by omega
      cases f2 with
      | zero => omega
      | succ m =>
        simp only [rsegmentF]
        rw [if_neg hss, if_neg hss]
        set S := (x.drop start).take (stop - start) with hS
        set res := cbsInner S sh p rng with hres
        by_cases hstop : res.1 = false ∨ res.2.2.2.1 - res.2.2.1 < 5 ∨
            res.2.2.2.1 - res.2.2.1 = stop - start
        · rw [if_pos hstop, if_pos hstop]
        · rw [if_neg hstop, if_neg hstop]
          push_neg at hstop
          obtain ⟨hc, h5, hne⟩ := hstop
          have hct : res.1 = true := by
            revert hc
            cases res.1 <;> simp
          have hb := cbsInner_true_bounds S sh p rng (by rw [← hres]; exact hct)
          rw [← hres] at hb
          have hlen : S.length ≤ stop - start := by
            rw [hS]
            simp only [List.length_take, List.length_drop]
            omega
          obtain ⟨hb1, hb2, _, _⟩ := hb
          have hbe : res.2.2.2.1 ≤ stop - start := le_trans hb2 hlen
          have hleft : (if 0 < res.2.2.1 then
                rsegmentF n x start (start + res.2.2.1) sh p res.2.2.2.2
              else ([], res.2.2.2.2)) =
              (if 0 < res.2.2.1 then
                rsegmentF m x start (start + res.2.2.1) sh p res.2.2.2.2
              else ([], res.2.2.2.2)) := by
            by_cases hs0 : 0 < res.2.2.1
            · rw [if_pos hs0, if_pos hs0]
              exact ih m x sh p _ start (start + res.2.2.1) (by omega) (by omega)
            · rw [if_neg hs0, if_neg hs0]
          rw [hleft]
          by_cases her : start + res.2.2.2.1 < stop
          · rw [if_pos her, if_pos her,
              ih m x sh p _ (start + res.2.2.2.1) stop (by omega) (by omega)]
          · rw [if_neg her, if_neg her]

/-- C8: the recursive segmentation terminates.  Whenever a call frame on
`[start, stop)` splits (a significant change whose split region is at least 5
wide and not the whole range), each of the three child ranges — before the
split, the split region itself, and after the split — is strictly smaller
than `stop - start`; consequently any recursion fuel of at least
`stop - start` computes the same result as `rsegment`, i.e. the recursion
bottoms out with no cycles. -/
theorem rsegment_strict_decrease :
    (∀ (x : List ℚ) (sh : Int) (p : ℚ) (rng : Rng) (start stop : Nat),
      start < stop →
      (cbsInner ((x.drop start).take (stop - start)) sh p rng).1 = true →
      ¬ ((cbsInner ((x.drop start).take (stop - start)) sh p rng).2.2.2.1 -
          (cbsInner ((x.drop start).take (stop - start)) sh p rng).2.2.1 < 5) →
      (cbsInner ((x.drop start).take (stop - start)) sh p rng).2.2.2.1 -
          (cbsInner ((x.drop start).take (stop - start)) sh p rng).2.2.1 ≠ stop - start →
      (cbsInner ((x.drop start).take (stop - start)) sh p rng).2.2.1 < stop - start ∧
      (cbsInner ((x.drop start).take (stop - start)) sh p rng).2.2.2.1 -
          (cbsInner ((x.drop start).take (stop - start)) sh p rng).2.2.1 < stop - start ∧
      stop - (start + (cbsInner ((x.drop start).take (stop - start)) sh p rng).2.2.2.1) <
        stop - start) ∧
    (∀ (fuel : Nat) (x : List ℚ) (sh : Int) (p : ℚ) (rng : Rng) (start stop : Nat),
      stop - start ≤ fuel →
      rsegmentF fuel x start stop sh p rng = rsegment x start stop sh p rng) := by
  constructor
  · intro x sh p rng start stop hlt hct h5 hne
    have hb := cbsInner_true_bounds ((x.drop start).take (stop - start)) sh p rng hct
    have hlen : ((x.drop start).take (stop - start)).length ≤ stop - start := by
      simp only [List.length_take, List.length_drop]
      omega
    obtain ⟨hb1, hb2, _, _⟩ := hb
    have hbe := le_trans hb2 hlen
    omega
  · intro fuel x sh p rng start stop hf
    unfold rsegment
    exact rsegmentF_fuel_congr fuel (stop - start) x sh p rng start stop hf (by omega)

theorem rsegment_strict_decrease_witness :
    ((cbsInner ((([(0 : ℚ), 0, 0, 0, 0, 0, 0, 9, 9, 9, 9, 9, 9, 9]).drop 0).take (14 - 0))
        0 (1/20) ⟨fun _ => 0, 0⟩).2.2.1 < 14 - 0) ∧
    rsegmentF 20 [(0 : ℚ), 0, 0, 0, 0, 0, 0, 9, 9, 9, 9, 9, 9, 9] 0 14 0 (1/20)
        ⟨fun _ => 0, 0⟩ =
      rsegment [(0 : ℚ), 0, 0, 0, 0, 0, 0, 9, 9, 9, 9, 9, 9, 9] 0 14 0 (1/20)
        ⟨fun _ => 0, 0⟩ := by
  constructor
  · exact (rsegment_strict_decrease.1 [(0 : ℚ), 0, 0, 0, 0, 0, 0, 9, 9, 9, 9, 9, 9, 9]
      0 (1/20) ⟨fun _ => 0, 0⟩ 0 14 (by decide) (by decide) (by decide) (by decide)).1
  · exact rsegment_strict_decrease.2 20 [(0 : ℚ), 0, 0, 0, 0, 0, 0, 9, 9, 9, 9, 9, 9, 9]
      0 (1/20) ⟨fun _ => 0, 0⟩ 0 14 (by decide)

/-- C6: with `shuffles ≤ 0` the permutation loop runs zero iterations (no
permutation evidence is gathered) and `cbsInner` returns
`isSignificant = true` unconditionally whenever the whole-span check passes,
i.e. whenever the candidate split does not span the entire sub-sequence. -/
theorem cbsInner_no_shuffles_significant (x : List ℚ) (shuffles : Int) (p : ℚ) (rng : Rng)
    (hsh : shuffles ≤ 0)
    (hspan : (cbsStat x).2.2 - (cbsStat x).2.1 ≠ x.length) :
    (cbsInner x shuffles p rng).1 = true := by
  simp only [cbsInner]
  rw [if_neg hspan, Int.toNat_of_nonpos hsh]
  rfl

theorem cbsInner_no_shuffles_significant_witness :
    (-1 : Int) ≤ 0 ∧ (cbsInner [(0 : ℚ), 0, 0] (-1) (1/20) ⟨fun _ => 0, 0⟩).1 = true :=
  ⟨by decide, cbsInner_no_shuffles_significant [(0 : ℚ), 0, 0] (-1) (1/20) ⟨fun _ => 0, 0⟩
    (by decide) (by decide)⟩

theorem listSum_const (l : List ℚ) (c : ℚ) (h : ∀ v ∈ l, v = c) :
    listSum l = c * l.length := by
  induction l with
  | nil => simp [listSum]
  | cons v r ih =>
    have hv : v = c := h v (List.mem_cons_self v r)
    have hr := ih fun w hw => h w (List.mem_cons_of_mem v hw)
    simp only [listSum, hv, hr, List.length_cons]
    push_cast
    ring

theorem goMean_const (l : List ℚ) (c : ℚ) (h : ∀ v ∈ l, v = c) (hne : l.length ≠ 0) :
    goMean l = c := by
  unfold goMean
  rw [listSum_const l c h]
  have hq : (l.length : ℚ) ≠ 0 := Nat.cast_ne_zero.mpr hne
  field_simp

theorem centered_const (l : List ℚ) (c : ℚ) (h : ∀ v ∈ l, v = c) (hne : l.length ≠ 0) :
    l.map (fun v => v - goMean l) = List.replicate l.length 0 := by
  rw [goMean_const l c h hne]
  refine List.eq_replicate_iff.mpr ⟨by simp, ?_⟩
  intro b hb
  obtain ⟨v, hv, rfl⟩ := List.mem_map.mp hb
  rw [h v hv]
  ring

theorem cumSumAux_replicate_zero : ∀ (n : Nat) (acc : ℚ),
    cumSumAux acc (List.replicate n 0) = List.replicate n acc := by
  intro n
  induction n with
  | zero => intro acc; rfl
  | succ m ih =>
    intro acc
    simp only [List.replicate_succ, cumSumAux, add_zero, ih]

theorem cbsY_const (x : List ℚ) (c : ℚ) (h : ∀ v ∈ x, v = c) (hne : x.length ≠ 0) :
    cbsY x = List.replicate x.length 0 := by
  unfold cbsY cumSum
  rw [centered_const x c h hne]
  exact cumSumAux_replicate_zero x.length 0

theorem maxIdx_replicate (n : Nat) (c : ℚ) (h : 1 ≤ n) :
    maxIdx (List.replicate n c) = 0 := by
  obtain ⟨m, rfl⟩ : ∃ m, n = m + 1 := ⟨n - 1, by omega⟩
  rw [List.replicate_succ]
  simp only [maxIdx]
  rw [maxIdxAux_eq, if_pos]
  intro v hv
  rw [List.eq_of_mem_replicate hv]

theorem minIdx_replicate (n : Nat) (c : ℚ) (h : 1 ≤ n) :
    minIdx (List.replicate n c) = 0 := by
  rw [minIdx_eq_maxIdx_neg, List.map_replicate]
  exact maxIdx_replicate n (-c) h

theorem cbsStat_const (x : List ℚ) (c : ℚ) (h : ∀ v ∈ x, v = c) (hne : x.length ≠ 0) :
    cbsStat x = (0, 0, 1) := by
  rw [cbsStat_eq x hne]
  have hy := cbsY_const x c h hne
  have he0 : cbsE0 x = 0 := by
    unfold cbsE0
    rw [hy]
    exact maxIdx_replicate _ _ (by omega)
  have he1 : cbsE1 x = 0 := by
    unfold cbsE1
    rw [hy]
    exact minIdx_replicate _ _ (by omega)
  have hi0 : cbsI0 x = 0 := by
    unfold cbsI0
    rw [he0, he1]
    simp
  have hi1 : cbsI1 x = 0 := by
    unfold cbsI1
    rw [he0, he1]
    simp
  have hgetD : (cbsY x).getD 0 0 = 0 := by
    rw [hy]
    obtain ⟨m, hm⟩ : ∃ m, x.length = m + 1 := ⟨x.length - 1, by omega⟩
    rw [hm, List.replicate_succ]
    rfl
  have hT : cbsT x = 0 := by
    unfold cbsT
    split
    · rfl
    · rw [hi0, hi1, hgetD]
      simp
  rw [hT, hi0, hi1]

theorem getD_mem_of_lt : ∀ (l : List ℚ) (j : Nat), j < l.length → l.getD j 0 ∈ l := by
  intro l
  induction l with
  | nil =>
    intro j hj
    simp at hj
  | cons v r ih =>
    intro j hj
    cases j with
    | zero => simp
    | succ m =>
      simp only [List.getD_cons_succ]
      exact List.mem_cons_of_mem v (ih m (by simpa using hj))

theorem listSwap_const {l : List ℚ} {c : ℚ} (h : ∀ v ∈ l, v = c) (i j : Nat) :
    ∀ v ∈ listSwap l i j, v = c := by
  unfold listSwap
  split
  · next hij =>
    obtain ⟨hi, hj⟩ := hij
    intro v hv
    rcases List.mem_or_eq_of_mem_set hv with hv1 | hv1
    · rcases List.mem_or_eq_of_mem_set hv1 with hv2 | hv2
      · exact h v hv2
      · subst hv2
        exact h _ (getD_mem_of_lt l j hj)
    · subst hv1
      exact h _ (getD_mem_of_lt l i hi)
  · exact h

theorem shuffleLoop_const {c : ℚ} : ∀ (fuel : Nat) (a : List ℚ) (r : Rng),
    (∀ v ∈ a, v = c) → ∀ v ∈ (shuffleLoop fuel a r).1, v = c := by
  intro fuel
  induction fuel with
  | zero => intro a r h; exact h
  | succ m ih =>
    intro a r h
    simp only [shuffleLoop]
    exact ih _ _ (listSwap_const h _ _)

theorem shuffleGo_const {c : ℚ} (a : List ℚ) (r : Rng) (h : ∀ v ∈ a, v = c) :
    ∀ v ∈ (shuffleGo a r).1, v = c :=
  shuffleLoop_const _ a r h

theorem cbsStat_fst_const {c : ℚ} (l : List ℚ) (h : ∀ v ∈ l, v = c) : (cbsStat l).1 = 0 := by
  by_cases hne : l.length = 0
  · simp [cbsStat, hne]
  · rw [cbsStat_const l c h hne]

theorem permLoop_const {c : ℚ} (alpha : ℚ) : ∀ (fuel : Nat) (xt : List ℚ) (rng : Rng) (tc : Nat),
    (∀ v ∈ xt, v = c) → (tc : ℚ) ≤ alpha → alpha < (tc : ℚ) + fuel →
    (permLoop 0 alpha fuel xt rng tc).1 = false := by
  intro fuel
  induction fuel with
  | zero =>
    intro xt rng tc h h1 h2
    exfalso
    push_cast at h2
    linarith
  | succ m ih =>
    intro xt rng tc h h1 h2
    simp only [permLoop]
    have hthr : (cbsStat (shuffleGo xt rng).1).1 = 0 :=
      cbsStat_fst_const _ (shuffleGo_const xt rng h)
    rw [hthr, if_pos (le_refl (0 : ℚ))]
    by_cases hex : alpha < ((tc + 1 : Nat) : ℚ)
    · rw [if_pos hex]
    · rw [if_neg hex]
      refine ih _ _ _ (shuffleGo_const xt rng h) (le_of_not_lt hex) ?_
      push_cast at h2 ⊢
      linarith

theorem cbsInner_const (x : List ℚ) (c : ℚ) (shuffles : Int) (p : ℚ) (rng : Rng)
    (h : ∀ v ∈ x, v = c) (hsh : 1 ≤ shuffles) (hp0 : 0 < p) (hp1 : p < 1) :
    (cbsInner x shuffles p rng).1 = false := by
  by_cases hne : x.length = 0
  · have hnil : x = [] := List.length_eq_zero.mp hne
    subst hnil
    simp [cbsInner, cbsStat]
  · have hst := cbsStat_const x c h hne
    simp only [cbsInner, hst]
    by_cases hx1 : x.length = 1
    · rw [if_pos (by omega)]
    · rw [if_neg (by omega)]
      have hshq : (1 : ℚ) ≤ (shuffles : ℚ) := by exact_mod_cast hsh
      have htn : ((shuffles.toNat : ℚ)) = (shuffles : ℚ) := by
        have := Int.toNat_of_nonneg (by omega : (0 : Int) ≤ shuffles)
        exact_mod_cast congrArg (fun z : Int => (z : ℚ)) this
      refine permLoop_const _ _ x rng 0 h (by positivity) ?_
      push_cast
      rw [htn]
      nlinarith

/-- C5: a constant input sequence (all values equal, n ≥ 1), with any shuffle
count ≥ 1, any p in (0,1) and any seed, makes `CBS` return exactly one
segment `[0, n)`; the centered cumulative sum is identically zero, the
statistic is zero, and no significant split is declared. -/
theorem cbs_constant_input (mkStream : Int → Nat → Nat) (now : Int) (x : List ℚ) (c : ℚ)
    (shuffles : Int) (p : ℚ) (seed : Int)
    (h : ∀ v ∈ x, v = c) (h1 : 1 ≤ x.length) (hsh : 1 ≤ shuffles) (hp0 : 0 < p)
    (hp1 : p < 1) :
    CBS mkStream now x shuffles p seed = [(0, x.length)] ∧
    cbsY x = List.replicate x.length 0 ∧
    cbsStat x = (0, 0, 1) ∧
    (∀ rng : Rng, (cbsInner x shuffles p rng).1 = false) := by
  have hne : x.length ≠ 0 := by omega
  refine ⟨?_, cbsY_const x c h hne, cbsStat_const x c h hne,
    fun rng => cbsInner_const x c shuffles p rng h hsh hp0 hp1⟩
  unfold CBS rsegment
  obtain ⟨m, hm⟩ : ∃ m, x.length - 0 = m + 1 := ⟨x.length - 1, by omega⟩
  rw [hm]
  simp only [rsegmentF]
  rw [if_neg (by omega : ¬ (0 : Nat) ≥ x.length)]
  have hslice : (x.drop 0).take (x.length - 0) = x := by simp
  rw [hslice,
    if_pos (Or.inl (cbsInner_const x c shuffles p _ h hsh hp0 hp1))]

theorem cbs_constant_input_witness :
    (∀ v ∈ [(2 : ℚ), 2, 2, 2, 2], v = 2) ∧
    CBS (fun _ _ => 0) 0 [(2 : ℚ), 2, 2, 2, 2] 1 (1/2) 0 = [(0, 5)] := by
  constructor
  · decide
  · exact (cbs_constant_input (fun _ _ => 0) 0 [(2 : ℚ), 2, 2, 2, 2] 2 1 (1/2) 0
      (by decide) (by decide) (by decide) (by decide) (by decide)).1

/-- C1 (showing the seed bug at cbs.go lines 27-31): the seed condition is
inverted.  A caller-supplied seed of 42 makes the random stream depend on the
wall clock (`now`), so two independent calls with identical input, shuffle
count, significance level and seed can return different segment lists; the
stream is deterministic in the caller-supplied seed only at the sentinel
value 0. -/
theorem cbs_seed_ignored :
    (CBS (fun src k => if src = 1 then 13 - k else k + 1) 1
        [(0 : ℚ), 0, 0, 0, 0, 0, 0, 9, 9, 9, 9, 9, 9, 9] 1 (1/2) 42 ≠
      CBS (fun src k => if src = 1 then 13 - k else k + 1) 2
        [(0 : ℚ), 0, 0, 0, 0, 0, 0, 9, 9, 9, 9, 9, 9, 9] 1 (1/2) 42) ∧
    (∀ (mkStream : Int → Nat → Nat) (now1 now2 : Int) (x : List ℚ) (shuffles : Int) (p : ℚ),
      CBS mkStream now1 x shuffles p 0 = CBS mkStream now2 x shuffles p 0) := by
  constructor
  · decide
  · intro mkStream now1 now2 x shuffles p
    rfl

theorem permLoopHeap_frame (maxT alpha : ℚ) (xtp : Nat) : ∀ (fuel : Nat) (h : Heap)
    (rng : Rng) (tc : Nat) (a : Nat), a ≠ xtp →
    (permLoopHeap maxT alpha xtp fuel h rng tc).2.1 a = h a := by
  intro fuel
  induction fuel with
  | zero =>
    intro h rng tc a _
    rfl
  | succ m ih =>
    intro h rng tc a ha
    simp only [permLoopHeap]
    split <;> split
    all_goals first
      | simp [writeHeap, ha]
      | (rw [ih _ _ _ a ha]; simp [writeHeap, ha])

theorem cbsInnerHeap_frame (h : Heap) (xp off len alloc : Nat) (shuffles : Int) (p : ℚ)
    (rng : Rng) :
    alloc ≤ (cbsInnerHeap h xp off len alloc shuffles p rng).2.2.2.2.2.1 ∧
    ∀ a : Nat, a < alloc → (cbsInnerHeap h xp off len alloc shuffles p rng).2.2.2.2.1 a = h a := by
  simp only [cbsInnerHeap]
  split
  · exact ⟨le_refl _, fun a _ => rfl⟩
  · constructor
    · show alloc ≤ alloc + 1
      omega
    · intro a ha
      show (permLoopHeap _ _ alloc shuffles.toNat _ rng 0).2.1 a = h a
      rw [permLoopHeap_frame _ _ _ _ _ _ _ a (by omega)]
      have hne : a ≠ alloc := by omega
      simp [writeHeap, hne]

theorem rsegmentHeapF_frame : ∀ (fuel : Nat) (h : Heap) (xp start stop alloc : Nat)
    (shuffles : Int) (p : ℚ) (rng : Rng),
    alloc ≤ (rsegmentHeapF fuel h xp start stop alloc shuffles p rng).2.2.1 ∧
    ∀ a : Nat, a < alloc →
      (rsegmentHeapF fuel h xp start stop alloc shuffles p rng).2.1 a = h a := by
  intro fuel
  induction fuel with
  | zero =>
    intro h xp start stop alloc sh p rng
    exact ⟨le_refl _, fun a _ => rfl⟩
  | succ m ih =>
    intro h xp start stop alloc sh p rng
    simp only [rsegmentHeapF]
    split
    · exact ⟨le_refl _, fun a _ => rfl⟩
    · obtain ⟨hc1, hc2⟩ := cbsInnerHeap_frame h xp start (stop - start) alloc sh p rng
      set res := cbsInnerHeap h xp start (stop - start) alloc sh p rng with hres
      split
      · exact ⟨hc1, hc2⟩
      · set L := (if 0 < res.2.2.1 then
            rsegmentHeapF m res.2.2.2.2.1 xp start (start + res.2.2.1) res.2.2.2.2.2.1 sh p
              res.2.2.2.2.2.2
          else ([], res.2.2.2.2.1, res.2.2.2.2.2.1, res.2.2.2.2.2.2)) with hL
        have hLa : res.2.2.2.2.2.1 ≤ L.2.2.1 ∧
            ∀ a : Nat, a < res.2.2.2.2.2.1 → L.2.1 a = res.2.2.2.2.1 a := by
          rw [hL]
          split
          · exact ⟨(ih _ _ _ _ _ _ _ _).1, (ih _ _ _ _ _ _ _ _).2⟩
          · exact ⟨le_refl _, fun a _ => rfl⟩
        set R := (if start + res.2.2.2.1 < stop then
            rsegmentHeapF m L.2.1 xp (start + res.2.2.2.1) stop L.2.2.1 sh p L.2.2.2
          else ([], L.2.1, L.2.2.1, L.2.2.2)) with hR
        have hRa : L.2.2.1 ≤ R.2.2.1 ∧
            ∀ a : Nat, a < L.2.2.1 → R.2.1 a = L.2.1 a := by
          rw [hR]
          split
          · exact ⟨(ih _ _ _ _ _ _ _ _).1, (ih _ _ _ _ _ _ _ _).2⟩
          · exact ⟨le_refl _, fun a _ => rfl⟩
        constructor
        · show alloc ≤ R.2.2.1
          have h1 := hLa.1
          have h2 := hRa.1
          omega
        · intro a ha
          show R.2.1 a = h a
          rw [hRa.2 a (by omega), hLa.2 a (by omega), hc2 a ha]

/-- C10: a top-level call to `CBS` leaves the input sequence unchanged.  In
the heap model of Go's slice semantics, the permutation test writes only to
the freshly allocated working copy (`make` + `copy`), whose address never
equals the input's; after the call the input array holds its original
contents. -/
theorem cbs_preserves_input (mkStream : Int → Nat → Nat) (now : Int) (h : Heap) (xp : Nat)
    (shuffles : Int) (p : ℚ) (seed : Int) :
    (CBSHeap mkStream now h xp shuffles p seed).2 xp = h xp := by
  unfold CBSHeap
  exact (rsegmentHeapF_frame ((h xp).length) h xp 0 ((h xp).length) (xp + 1) shuffles p _).2
    xp (by omega)
